import Mathlib

/-!
Verification development for the gettiles QGIS plugin (tile/metatile
enumeration and output pipeline).

Shallow embedding of the core data model and algorithms:
* `Tile` and `Tile.y_tms` embed src/tile.py (`Tile.__init__`); the source
  computes `int(2.0**z - y - 1)` via double-precision floats, which is exact
  integer arithmetic for every zoom the plugin offers (z <= 24), so the
  embedding uses exact `Nat` arithmetic.
* `count_tiles_fuel`/`count_tiles` embed `TileSet.count_tiles`
  (src/tileset.py).  The geometric test `extents.intersects(tile.toRectangle())`
  is abstracted as a boolean predicate `inter : Tile -> Bool`, since the
  rectangle math is double-precision Mercator trigonometry; every property
  proved here holds for an arbitrary predicate (or takes the geometric facts
  the claims themselves cite as hypotheses).  The recursion of the source is
  on the quadtree depth, bounded by `maxZoom - z`; the `fuel` argument makes
  that bound explicit (the top-level wrapper supplies exactly enough fuel, and
  the fuel-exhausted branch is unreachable there).
* `tileset_ranges_z`, `tileset_size`, `buffer_extent`, `padded_range`,
  `meta_steps`, `count_metatiles_z`, `count_metatiles` embed
  `TileSet.tileset_ranges`, `TileSet.tileset_size`, `TileSet.buffer_extent`
  and `TileSet.count_metatiles`.  Metatile index bounds are `Int` because the
  buffer expansion can produce index -1.  The source's `while` walk advances
  the start index by the metatile size each step; it terminates exactly when
  the metatile size is >= 1 (the source loops forever on size 0), so the
  embedding again uses an explicit fuel that is sufficient whenever the step
  is >= 1.
* `mbtiles_writeTile`, `tileset_init_mode` embed `MBTilesWriter.writeTile`
  (src/writers.py) and the output-mode selection in `TileSet.__init__`.
* `tilingRun` embeds the rendering loop of `TilingThread.run`
  (src/tilingthread.py): per item, render+write (modelled as an
  `Except` result), then read the mutex-guarded `stopMe` flag (modelled as a
  function of how many items have been processed); an exception propagates
  out of `run` (the `finalize` call is not inside a `finally`).
* `processAlgorithm` embeds the zoom validation prologue of
  `GetTilesProcessingAlgorithm.processAlgorithm`
  (src/get_tiles_processing_algorithm.py).
-/

namespace GetTiles

/-- A slippy-map tile, identified by column `x`, row `y` (top-left origin)
and zoom `z`; embeds the `Tile` class of src/tile.py. -/
structure Tile where
  x : Nat
  y : Nat
  z : Nat
deriving DecidableEq, Repr

/-- The bottom-left-origin (TMS) row computed at `Tile` construction:
`int(2.0**z - y - 1)` in the source, exact integer arithmetic in range. -/
def Tile.y_tms (t : Tile) : Nat := 2 ^ t.z - t.y - 1

/-- The four quadtree children of a tile, in the order the source's nested
`for x ... for y ...` loops visit them. -/
def tile_children (t : Tile) : List Tile :=
  [⟨2 * t.x, 2 * t.y, t.z + 1⟩, ⟨2 * t.x, 2 * t.y + 1, t.z + 1⟩,
   ⟨2 * t.x + 1, 2 * t.y, t.z + 1⟩, ⟨2 * t.x + 1, 2 * t.y + 1, t.z + 1⟩]

/-- Fueled embedding of `TileSet.count_tiles`: emit the tile when its zoom is
inside `[minZ, maxZ]`, recurse into the four children while `z < maxZ`.
`fuel >= maxZ - t.z` makes the fuel-exhausted branch unreachable. -/
def count_tiles_fuel (inter : Tile → Bool) (minZ maxZ : Nat) :
    Nat → Tile → List Tile
  | fuel, t =>
    if inter t = false then []
    else
      (if minZ ≤ t.z ∧ t.z ≤ maxZ then [t] else []) ++
      (if t.z < maxZ then
        match fuel with
        | 0 => []
        | fuel' + 1 =>
          count_tiles_fuel inter minZ maxZ fuel' ⟨2 * t.x, 2 * t.y, t.z + 1⟩ ++
          (count_tiles_fuel inter minZ maxZ fuel' ⟨2 * t.x, 2 * t.y + 1, t.z + 1⟩ ++
          (count_tiles_fuel inter minZ maxZ fuel' ⟨2 * t.x + 1, 2 * t.y, t.z + 1⟩ ++
          count_tiles_fuel inter minZ maxZ fuel' ⟨2 * t.x + 1, 2 * t.y + 1, t.z + 1⟩))
      else [])

/-- The tile enumeration of `TileSet.count_tiles` started at a given tile
(the pipeline starts it at `Tile(0, 0, 0)`). -/
def count_tiles (inter : Tile → Bool) (minZ maxZ : Nat) (t : Tile) : List Tile :=
  count_tiles_fuel inter minZ maxZ (maxZ - t.z) t

/-- Quadtree ancestry: `s` lies in the sub-pyramid rooted at `t` exactly when
`s` is at the same or deeper zoom and its column and row fall inside `t`'s
index interval scaled to `s`'s zoom.  Each tile reached by the recursion of
`count_tiles` from `t` is a descendant of `t` in this sense. -/
def descendant (t s : Tile) : Prop :=
  t.z ≤ s.z ∧
  t.x * 2 ^ (s.z - t.z) ≤ s.x ∧ s.x < (t.x + 1) * 2 ^ (s.z - t.z) ∧
  t.y * 2 ^ (s.z - t.z) ≤ s.y ∧ s.y < (t.y + 1) * 2 ^ (s.z - t.z)

/-- All tiles of the zoom pyramid for zoom levels 0, 1 and 2: the expected
result of enumerating the whole world over the zoom range `[0, 2]`. -/
def allTiles012 : List Tile :=
  (List.range 3).flatMap fun z =>
    (List.range (2 ^ z)).flatMap fun x =>
      (List.range (2 ^ z)).map fun y => ⟨x, y, z⟩

/-- Per-zoom inclusive tile-index bounds `(row_min, row_max, col_min, col_max)`
as produced by `TileSet.tileset_ranges`.  Fields are `Int` because buffered
metatile bounds may leave `[0, 2^z)`. -/
structure MRange where
  rmin : Int
  rmax : Int
  cmin : Int
  cmax : Int
deriving DecidableEq, Repr

/-- Embedding of one zoom level of `TileSet.tileset_ranges`: the source sorts
the zoom level's tiles by row (resp. column) and takes the first and last
element, i.e. the minimum and maximum row (resp. column); indexing `[0]` and
`[-1]` raises `IndexError` on an empty level, modelled as `none`. -/
def tileset_ranges_z (tiles : List Tile) (z : Nat) : Option MRange :=
  match tiles.filter (fun t => t.z == z) with
  | [] => none
  | t :: ts =>
    some ⟨(ts.foldl (fun a s => min a s.y) t.y : Nat),
          (ts.foldl (fun a s => max a s.y) t.y : Nat),
          (ts.foldl (fun a s => min a s.x) t.x : Nat),
          (ts.foldl (fun a s => max a s.x) t.x : Nat)⟩

/-- Embedding of `TileSet.tileset_size` for one zoom level:
`(rows, cols) = (rowMax - rowMin + 1, colMax - colMin + 1)`. -/
def tileset_size (r : MRange) : Int × Int :=
  (r.rmax - r.rmin + 1, r.cmax - r.cmin + 1)

/-- Embedding of `TileSet.buffer_extent`: grow the bounds by one tile in all
four directions. -/
def buffer_extent (r : MRange) : MRange :=
  ⟨r.rmin - 1, r.rmax + 1, r.cmin - 1, r.cmax + 1⟩

/-- The remainder-padding step of `TileSet.count_metatiles`: extend `rmax` by
`((rmax + 1) - rmin) % metatile_rows` when that remainder is nonzero, and
`cmax` likewise. -/
def padded_range (r : MRange) (metatile_rows metatile_cols : Int) : MRange :=
  let row_offset := ((r.rmax + 1) - r.rmin) % metatile_rows
  let col_offset := ((r.cmax + 1) - r.cmin) % metatile_cols
  ⟨r.rmin,
   if 0 < row_offset then r.rmax + row_offset else r.rmax,
   r.cmin,
   if 0 < col_offset then r.cmax + col_offset else r.cmax⟩

/-- Fueled embedding of the `while range[0] < stop` walk of
`TileSet.count_metatiles`: emit `(start, start + meta - 1)` and advance the
start by `meta` while the start is strictly below `stop`.  The source loop
terminates exactly when `meta >= 1`; `fuel = (stop - start).toNat` is then
sufficient. -/
def meta_steps_fuel (meta : Int) : Nat → Int → Int → List (Int × Int)
  | 0, _, _ => []
  | fuel + 1, start, stop =>
    if start < stop then
      (start, start + meta - 1) :: meta_steps_fuel meta fuel (start + meta) stop
    else []

/-- The list of `(min, max)` index ranges visited by one dimension of the
metatile walk from `start` while strictly below `stop`, in steps of `meta`. -/
def meta_steps (start stop meta : Int) : List (Int × Int) :=
  meta_steps_fuel meta (stop - start).toNat start stop

/-- One metatile as constructed by `TileSet.count_metatiles`: tile-index
bounds (already buffered when `buffered` is set), zoom, and the buffered
flag. -/
structure Metatile where
  rmin : Int
  rmax : Int
  cmin : Int
  cmax : Int
  z : Nat
  buffered : Bool
deriving DecidableEq, Repr

/-- The unbuffered tile-index bounds of an emitted metatile: the bounds the
walk produced before `buffer_extent` was applied. -/
def Metatile.unbuffered (m : Metatile) : MRange :=
  if m.buffered then ⟨m.rmin + 1, m.rmax - 1, m.cmin + 1, m.cmax - 1⟩
  else ⟨m.rmin, m.rmax, m.cmin, m.cmax⟩

/-- Embedding of one zoom level of `TileSet.count_metatiles`.  When the
metatile is at least as large as the level's span in both dimensions, a
single unbuffered metatile covering the whole range is emitted (the source
never applies the buffer in this branch).  Otherwise the bounds are
remainder-padded and walked column-major in metatile-sized steps, applying
`buffer_extent` to each emitted metatile when buffering is enabled. -/
def count_metatiles_z (size : Int × Int) (set_range : MRange) (z : Nat)
    (metatile_rows metatile_cols : Int) (metatile_buffer : Bool) :
    List Metatile :=
  if size.2 ≤ metatile_cols ∧ size.1 ≤ metatile_rows then
    [⟨set_range.rmin, set_range.rmax, set_range.cmin, set_range.cmax, z, false⟩]
  else
    let padded := padded_range set_range metatile_rows metatile_cols
    let col_steps := meta_steps padded.cmin padded.cmax metatile_cols
    let row_steps := meta_steps padded.rmin padded.rmax metatile_rows
    col_steps.flatMap (fun c =>
      row_steps.map (fun rw =>
        if metatile_buffer then ⟨rw.1 - 1, rw.2 + 1, c.1 - 1, c.2 + 1, z, true⟩
        else ⟨rw.1, rw.2, c.1, c.2, z, false⟩))

/-- Embedding of `TileSet.count_metatiles` over the configured zoom range
`range(minZoom, maxZoom + 1)`, reading the per-zoom sizes and ranges
dictionaries. -/
def count_metatiles (minZ maxZ : Nat) (sizes : Nat → Int × Int)
    (ranges : Nat → MRange) (metatile_rows metatile_cols : Int)
    (metatile_buffer : Bool) : List Metatile :=
  (List.range' minZ (maxZ + 1 - minZ)).flatMap fun z =>
    count_metatiles_z (sizes z) (ranges z) z metatile_rows metatile_cols
      metatile_buffer

/-- Output-backend selection, embedding the mode dispatch of
`TileSet.__init__` (src/tileset.py lines 72-78). -/
inductive Mode
  | dir
  | zip
  | mbtiles
deriving DecidableEq, Repr

/-- Embedding of the output-mode branch of `TileSet.__init__`: directory,
`.zip`, or `.mbtiles` by inspecting the destination, and for the MBTiles mode
the tiling-convention flag is forced to `true` (`self.tmsConvention = True`);
when no branch matches, `self.mode` is never assigned (modelled as `none`). -/
def tileset_init_mode (isDir : Bool) (suffix : String) (tmsConvention : Bool) :
    Option (Mode × Bool) :=
  if isDir then some (Mode.dir, tmsConvention)
  else if suffix = "zip" then some (Mode.zip, tmsConvention)
  else if suffix = "mbtiles" then some (Mode.mbtiles, true)
  else none

/-- A row of the MBTiles `tiles` table: `(zoom_level, tile_column, tile_row)`
key plus the encoded image bytes stored as a binary blob. -/
structure TilesRow where
  zoom_level : Nat
  tile_column : Nat
  tile_row : Nat
  tile_data : List Nat
deriving DecidableEq, Repr

/-- Embedding of `MBTilesWriter.writeTile` (src/writers.py): the stored row
index is `tile.y`, replaced by `tile.y_tms` when the writer's convention flag
is set, and the encoded bytes are stored as the row's blob. -/
def mbtiles_writeTile (tmsConvention : Bool) (t : Tile) (data : List Nat) :
    TilesRow :=
  ⟨t.z, t.x, if tmsConvention then t.y_tms else t.y, data⟩

/-- Terminal outcome of a worker run: `finished` and `interrupted` mirror the
`processFinished` / `processInterrupted` signals of `TilingThread.run`;
`raised` models an exception propagating out of `run` (no signal is
emitted). -/
inductive Outcome
  | finished
  | interrupted
  | raised
deriving DecidableEq, Repr

/-- Observable result of one `TilingThread.run`: how many items (tiles or
metatiles) were fully rendered and written, how many times the writer's
`finalize` ran, and the terminal outcome. -/
structure RunResult where
  written : Nat
  finalized : Nat
  outcome : Outcome
deriving DecidableEq, Repr

/-- The rendering loop of `TilingThread.run`: process items in order; each
item's render+write is an `Except` result (an exception aborts the loop);
after a successful item the mutex-guarded `stopMe` flag is read (modelled by
`flag n`, the value observed after `n` items have been processed) and, when
set, the loop breaks with `interrupted = True`.  Returns
`(processed, error?, interrupted)`. -/
def runLoop (flag : Nat → Bool) :
    List (Except Unit Unit) → Nat → Nat × Option Unit × Bool
  | [], n => (n, none, false)
  | item :: rest, n =>
    match item with
    | Except.error e => (n, some e, false)
    | Except.ok _ =>
      if flag (n + 1) then (n + 1, none, true)
      else runLoop flag rest (n + 1)

/-- Embedding of the tail of `TilingThread.run`: after the loop,
`tileset.writer.finalize()` runs and `processFinished` or
`processInterrupted` is emitted — but only on the normal exit paths; the
`finalize` call is not inside a `finally`, so an exception from the loop
skips it and propagates. -/
def tilingRun (flag : Nat → Bool) (items : List (Except Unit Unit)) :
    RunResult :=
  match runLoop flag items 0 with
  | (n, some _, _) => ⟨n, 0, Outcome.raised⟩
  | (n, none, true) => ⟨n, 1, Outcome.interrupted⟩
  | (n, none, false) => ⟨n, 1, Outcome.finished⟩

/-- Terminal outcome of `GetTilesProcessingAlgorithm.processAlgorithm`:
either the configuration is rejected or the tiling worker is started. -/
inductive AlgoOutcome
  | configError
  | started
deriving DecidableEq, Repr

/-- Observable effects of one `processAlgorithm` call: the console message,
the outcome, whether a `TilingThread` was started, and how many tiles the
started worker would enumerate (0 when rejected: no worker ever runs). -/
structure AlgoRun where
  consoleMsg : Option String
  outcome : AlgoOutcome
  threadStarted : Bool
  tilesEnumerated : Nat
deriving DecidableEq, Repr

/-- Console message pushed when the zoom range is inverted. -/
def zoomErrorMsg : String :=
  "Maximum zoom value is lower than minimum. Please correct this and try again."

/-- Embedding of the zoom-validation prologue of
`GetTilesProcessingAlgorithm.processAlgorithm`: `if minzoom > maxzoom` the
algorithm pushes the error message and returns before any extent handling,
thread construction or enumeration; otherwise the worker thread is started
and enumerates `count_tiles` from the root tile. -/
def processAlgorithm (minzoom maxzoom : Nat) (inter : Tile → Bool) : AlgoRun :=
  if maxzoom < minzoom then ⟨some zoomErrorMsg, AlgoOutcome.configError, false, 0⟩
  else
    ⟨none, AlgoOutcome.started, true,
     (count_tiles inter minzoom maxzoom ⟨0, 0, 0⟩).length⟩

/-! ### Supporting lemmas for the rendering-loop model -/

/-- When every item succeeds and the cancellation flag first reads true at
the check after the `N`-th item, the loop stops with exactly `N` items
processed and the interrupted flag set. -/
theorem runLoop_all_ok_interrupt (N : Nat) :
    ∀ (rest : List (Except Unit Unit)) (n : Nat),
      (∀ i ∈ rest, i = Except.ok ()) → n < N → N ≤ n + rest.length →
      runLoop (fun k => decide (N ≤ k)) rest n = (N, none, true) := by
  intro rest
  induction rest with
  | nil =>
    intro n _ h1 h2
    simp only [List.length_nil, Nat.add_zero] at h2
    omega
  | cons item rest ih =>
    intro n hok h1 h2
    have hitem : item = Except.ok () := hok item (List.mem_cons_self _ _)
    subst hitem
    by_cases hN : N ≤ n + 1
    · have hEq : N = n + 1 := by omega
      simp [runLoop, hN, hEq]
    · have hrec := ih (n + 1) (fun i hi => hok i (List.mem_cons_of_mem _ hi))
        (by omega) (by simpa [Nat.add_comm, Nat.add_left_comm] using h2)
      simp [runLoop, hN, hrec]

/-- When the first `pre.length` items succeed, the flag stays unset through
their checks, and the next item raises, the loop aborts there with the error
and without the interrupted flag. -/
theorem runLoop_error (e : Unit) :
    ∀ (pre : List (Except Unit Unit)) (post : List (Except Unit Unit))
      (flag : Nat → Bool) (n : Nat),
      (∀ i ∈ pre, i = Except.ok ()) →
      (∀ k, k ≤ n + pre.length → flag k = false) →
      runLoop flag (pre ++ Except.error e :: post) n =
        (n + pre.length, some e, false) := by
  intro pre
  induction pre with
  | nil =>
    intro post flag n _ _
    simp [runLoop]
  | cons item pre ih =>
    intro post flag n hok hflag
    have hitem : item = Except.ok () := hok item (List.mem_cons_self _ _)
    subst hitem
    have hf : flag (n + 1) = false := hflag (n + 1)
      (by simp only [List.length_cons]; omega)
    have hrec := ih post flag (n + 1)
      (fun i hi => hok i (List.mem_cons_of_mem _ hi))
      (fun k hk => hflag k
        (by simp only [List.length_cons]; omega))
    simp [runLoop, hf, hrec]
    omega

/-- Helper: the cast of the power of two agrees over `Nat` and `Int`. -/
theorem cast_two_pow (z : Nat) : (((2 : Nat) ^ z : Nat) : Int) = (2 : Int) ^ z := by
  push_cast
  ring

/-- Helper: adding `a % n` to `a` yields a value congruent to twice the
remainder modulo `n`. -/
theorem emod_add_self_emod (a n : Int) :
    (a + a % n) % n = (2 * (a % n)) % n := by
  rw [Int.add_emod a (a % n) n, Int.emod_emod_of_dvd a (dvd_refl n),
    ← two_mul]

/-! ### Claim theorems: writer, orchestration, configuration, conversion -/

/-- C3: through a job whose output mode is MBTiles, `TileSet.__init__` forces
the convention flag to true regardless of the configured flag, and
`MBTilesWriter.writeTile` therefore stores the row keyed by
`(z, x, 2^z - y - 1)` with the encoded bytes as the row's blob. -/
theorem C3_mbtiles_row_always_tms (tmsFlag : Bool) (t : Tile)
    (data : List Nat) (h : t.y < 2 ^ t.z) :
    tileset_init_mode false "mbtiles" tmsFlag = some (Mode.mbtiles, true) ∧
    mbtiles_writeTile true t data = ⟨t.z, t.x, t.y_tms, data⟩ ∧
    ((mbtiles_writeTile true t data).tile_row : Int) =
      2 ^ t.z - t.y - 1 := by
  refine ⟨rfl, rfl, ?_⟩
  simp only [mbtiles_writeTile, if_true, Tile.y_tms]
  rw [← cast_two_pow]
  omega

/-- C3 witness: a concrete tile stored through the MBTiles path. -/
theorem C3_mbtiles_row_always_tms_witness :
    (⟨1, 0, 2⟩ : Tile).y < 2 ^ 2 ∧
    (tileset_init_mode false "mbtiles" false = some (Mode.mbtiles, true) ∧
     mbtiles_writeTile true ⟨1, 0, 2⟩ [7, 7] = ⟨2, 1, 3, [7, 7]⟩ ∧
     ((mbtiles_writeTile true ⟨1, 0, 2⟩ [7, 7]).tile_row : Int) =
       2 ^ 2 - 0 - 1) :=
  ⟨by decide, by
    have h := C3_mbtiles_row_always_tms false ⟨1, 0, 2⟩ [7, 7] (by decide)
    simpa using h⟩

/-- C4: when every item succeeds and cancellation is requested after `N` of
`M` items (the `stopMe` flag reads set at every check from the `N`-th item
on), the run stops with exactly `N` items rendered and written, `finalize`
runs exactly once, and the worker terminates in the interrupted state. -/
theorem C4_cancellation_stops_after_N (M N : Nat)
    (items : List (Except Unit Unit)) (hlen : items.length = M)
    (hok : ∀ i ∈ items, i = Except.ok ()) (h1 : 1 ≤ N) (h2 : N ≤ M) :
    tilingRun (fun k => decide (N ≤ k)) items =
      ⟨N, 1, Outcome.interrupted⟩ := by
  have key := runLoop_all_ok_interrupt N items 0 hok (by omega) (by omega)
  simp [tilingRun, key]

/-- C4 witness: cancelling after 2 of 3 items yields exactly 2 writes, one
finalize, and the interrupted outcome. -/
theorem C4_cancellation_stops_after_N_witness :
    (List.replicate 3 (Except.ok ()) : List (Except Unit Unit)).length = 3 ∧
    (1 : Nat) ≤ 2 ∧ (2 : Nat) ≤ 3 ∧
    tilingRun (fun k => decide (2 ≤ k))
        (List.replicate 3 (Except.ok ())) =
      ⟨2, 1, Outcome.interrupted⟩ :=
  ⟨rfl, by decide, by decide,
   C4_cancellation_stops_after_N 3 2 _ rfl
     (fun i hi => List.eq_of_mem_replicate hi) (by decide) (by decide)⟩

/-- C5 counterexample: a render error after one successful item leaves the
run with `finalize` never called (the source's `finalize` call is not in a
`finally` block) and no `Failed`-style signalled outcome — the exception
propagates, refuting the claim that finalize still runs on the failure
path. -/
theorem C5_counterexample_finalize_skipped :
    (tilingRun (fun _ => false)
        [Except.ok (), Except.error (), Except.ok ()]).finalized = 0 ∧
    (tilingRun (fun _ => false)
        [Except.ok (), Except.error (), Except.ok ()]).outcome =
      Outcome.raised := by
  constructor <;> rfl

/-- C5 amended: if the render callback or a writer raises at the item after
`n` successful items (and cancellation was not observed before that), the
exception propagates out of the worker: exactly `n` items were written,
`finalize` is never called, and neither finished nor interrupted is
signalled. -/
theorem C5_error_propagates_finalize_skipped (n m : Nat) (flag : Nat → Bool)
    (hflag : ∀ k, k ≤ n → flag k = false) :
    tilingRun flag
        (List.replicate n (Except.ok ()) ++
          Except.error () :: List.replicate m (Except.ok ())) =
      ⟨n, 0, Outcome.raised⟩ := by
  have key := runLoop_error () (List.replicate n (Except.ok ()))
    (List.replicate m (Except.ok ())) flag 0
    (fun i hi => List.eq_of_mem_replicate hi)
    (by simpa using hflag)
  simp only [List.length_replicate, Nat.zero_add] at key
  simp [tilingRun, key]

/-- C5 witness: one success, then an error: one write, no finalize, raised. -/
theorem C5_error_propagates_finalize_skipped_witness :
    (∀ k, k ≤ 1 → (fun _ => false : Nat → Bool) k = false) ∧
    tilingRun (fun _ => false)
        (List.replicate 1 (Except.ok ()) ++
          Except.error () :: List.replicate 1 (Except.ok ())) =
      ⟨1, 0, Outcome.raised⟩ :=
  ⟨fun _ _ => rfl,
   C5_error_propagates_finalize_skipped 1 1 _ (fun _ _ => rfl)⟩

/-- C7: an inverted zoom range (`minZoom > maxZoom`) is rejected by
`processAlgorithm` before anything else happens: the configuration error
message is pushed, no worker thread is started, and no tile is enumerated or
written. -/
theorem C7_inverted_zoom_rejected (minzoom maxzoom : Nat)
    (inter : Tile → Bool) (h : maxzoom < minzoom) :
    processAlgorithm minzoom maxzoom inter =
      ⟨some zoomErrorMsg, AlgoOutcome.configError, false, 0⟩ := by
  simp [processAlgorithm, h]

/-- C7 witness: `minZoom = 10, maxZoom = 5` is rejected with no side
effects. -/
theorem C7_inverted_zoom_rejected_witness :
    (5 : Nat) < 10 ∧
    processAlgorithm 10 5 (fun _ => true) =
      ⟨some zoomErrorMsg, AlgoOutcome.configError, false, 0⟩ :=
  ⟨by decide, C7_inverted_zoom_rejected 10 5 _ (by decide)⟩

/-- C8: for in-range rows the TMS conversion computed at `Tile` construction
equals `2^z - y - 1` (also as exact integer arithmetic), and applying the
conversion to the converted row yields back the original row. -/
theorem C8_y_tms_formula_involution (t : Tile) (h : t.y < 2 ^ t.z) :
    t.y_tms = 2 ^ t.z - t.y - 1 ∧
    ((t.y_tms : Int) = 2 ^ t.z - t.y - 1) ∧
    Tile.y_tms ⟨t.x, t.y_tms, t.z⟩ = t.y := by
  refine ⟨rfl, ?_, ?_⟩
  · simp only [Tile.y_tms]
    rw [← cast_two_pow]
    omega
  · simp only [Tile.y_tms]
    omega

/-- C8 witness: row 1 at zoom 2 converts to 2 and back to 1. -/
theorem C8_y_tms_formula_involution_witness :
    (⟨0, 1, 2⟩ : Tile).y < 2 ^ 2 ∧
    ((⟨0, 1, 2⟩ : Tile).y_tms = 2 ^ 2 - 1 - 1 ∧
     (((⟨0, 1, 2⟩ : Tile).y_tms : Int) = 2 ^ 2 - 1 - 1) ∧
     Tile.y_tms ⟨0, (⟨0, 1, 2⟩ : Tile).y_tms, 2⟩ = 1) :=
  ⟨by decide, by
    have h := C8_y_tms_formula_involution ⟨0, 1, 2⟩ (by decide)
    simpa using h⟩

/-- C2 counterexample: a zoom level spanning 7 rows and 7 columns with
metatile size 3x3 is extended by the remainder 1 to a span of 8, which is not
an exact multiple of 3 — refuting the claim that the padding makes the span
an exact multiple of the metatile size. -/
theorem C2_counterexample_span_not_multiple :
    (padded_range ⟨0, 6, 0, 6⟩ 3 3).rmax = 7 ∧
    ((padded_range ⟨0, 6, 0, 6⟩ 3 3).rmax + 1 -
        (padded_range ⟨0, 6, 0, 6⟩ 3 3).rmin) % 3 ≠ 0 := by
  constructor <;> decide

/-- C2 amended: `count_metatiles` does extend `rowMax` by
`spanRows mod metaRows` and `colMax` by `spanCols mod metaCols` (a no-op when
the remainder is zero), but the extended span is congruent to twice the
remainder modulo the metatile size rather than an exact multiple; it is an
exact multiple whenever the metatile size is 2 (the plugin's default). -/
theorem C2_padding_adds_remainder (r : MRange) (mr mc : Int)
    (hmr : 1 ≤ mr) (hmc : 1 ≤ mc) :
    (padded_range r mr mc).rmin = r.rmin ∧
    (padded_range r mr mc).cmin = r.cmin ∧
    (padded_range r mr mc).rmax = r.rmax + (r.rmax + 1 - r.rmin) % mr ∧
    (padded_range r mr mc).cmax = r.cmax + (r.cmax + 1 - r.cmin) % mc ∧
    ((padded_range r mr mc).rmax + 1 - r.rmin) % mr =
      (2 * ((r.rmax + 1 - r.rmin) % mr)) % mr ∧
    ((padded_range r mr mc).cmax + 1 - r.cmin) % mc =
      (2 * ((r.cmax + 1 - r.cmin) % mc)) % mc ∧
    (mr = 2 → ((padded_range r mr mc).rmax + 1 - r.rmin) % 2 = 0) ∧
    (mc = 2 → ((padded_range r mr mc).cmax + 1 - r.cmin) % 2 = 0) := by
  have hr0 : (0 : Int) ≤ (r.rmax + 1 - r.rmin) % mr :=
    Int.emod_nonneg _ (by omega)
  have hc0 : (0 : Int) ≤ (r.cmax + 1 - r.cmin) % mc :=
    Int.emod_nonneg _ (by omega)
  have hrlt : (r.rmax + 1 - r.rmin) % mr < mr :=
    Int.emod_lt_of_pos _ (by omega)
  have hclt : (r.cmax + 1 - r.cmin) % mc < mc :=
    Int.emod_lt_of_pos _ (by omega)
  have hrmax : (padded_range r mr mc).rmax =
      r.rmax + (r.rmax + 1 - r.rmin) % mr := by
    simp only [padded_range]
    by_cases h : 0 < (r.rmax + 1 - r.rmin) % mr
    · simp [h]
    · simp [h]; omega
  have hcmax : (padded_range r mr mc).cmax =
      r.cmax + (r.cmax + 1 - r.cmin) % mc := by
    simp only [padded_range]
    by_cases h : 0 < (r.cmax + 1 - r.cmin) % mc
    · simp [h]
    · simp [h]; omega
  have congr_row : ((padded_range r mr mc).rmax + 1 - r.rmin) % mr =
      (2 * ((r.rmax + 1 - r.rmin) % mr)) % mr := by
    rw [hrmax]
    have heq : r.rmax + (r.rmax + 1 - r.rmin) % mr + 1 - r.rmin =
        (r.rmax + 1 - r.rmin) + (r.rmax + 1 - r.rmin) % mr := by ring
    rw [heq, emod_add_self_emod]
  have congr_col : ((padded_range r mr mc).cmax + 1 - r.cmin) % mc =
      (2 * ((r.cmax + 1 - r.cmin) % mc)) % mc := by
    rw [hcmax]
    have heq : r.cmax + (r.cmax + 1 - r.cmin) % mc + 1 - r.cmin =
        (r.cmax + 1 - r.cmin) + (r.cmax + 1 - r.cmin) % mc := by ring
    rw [heq, emod_add_self_emod]
  refine ⟨rfl, rfl, hrmax, hcmax, congr_row, congr_col, ?_, ?_⟩
  · intro h2
    subst h2
    rw [congr_row, Int.mul_emod_right]
  · intro h2
    subst h2
    rw [congr_col, Int.mul_emod_right]

/-- C2 witness: the amended statement evaluated at the 7x7 span with
metatile size 3x3. -/
theorem C2_padding_adds_remainder_witness :
    (1 : Int) ≤ 3 ∧
    ((padded_range ⟨0, 6, 0, 6⟩ 3 3).rmax =
      6 + (6 + 1 - 0) % 3 ∧
     ((padded_range ⟨0, 6, 0, 6⟩ 3 3).rmax + 1 - 0) % 3 =
      (2 * ((6 + 1 - 0) % 3)) % 3) :=
  ⟨by decide, by
    have h := C2_padding_adds_remainder ⟨0, 6, 0, 6⟩ 3 3 (by decide) (by decide)
    exact ⟨by simpa using h.2.2.1, by simpa using h.2.2.2.2.1⟩⟩

/-! ### Quadtree lemmas for the tile enumeration -/

/-- Every tile is a descendant of itself. -/
theorem descendant_refl (t : Tile) : descendant t t := by
  simp [descendant]

/-- Helper: structural disequality of tiles from field disequality. -/
theorem tile_mk_ne {x1 y1 z1 x2 y2 z2 : Nat}
    (h : ¬(x1 = x2 ∧ y1 = y2 ∧ z1 = z2)) :
    (⟨x1, y1, z1⟩ : Tile) ≠ ⟨x2, y2, z2⟩ := by
  intro he
  injection he with h1 h2 h3
  exact h ⟨h1, h2, h3⟩

/-- The four quadtree children of a tile are its descendants. -/
theorem descendant_child {t c : Tile} (h : c ∈ tile_children t) :
    descendant t c := by
  have hone : ∀ z : Nat, z + 1 - z = 1 := fun z => by omega
  simp [tile_children] at h
  rcases h with rfl | rfl | rfl | rfl <;>
    (refine ⟨by simp, ?_, ?_, ?_, ?_⟩ <;> simp [hone] <;> omega)

/-- Descendancy is transitive. -/
theorem descendant_trans {t c s : Tile} (h1 : descendant t c)
    (h2 : descendant c s) : descendant t s := by
  obtain ⟨hz1, hx1, hx1', hy1, hy1'⟩ := h1
  obtain ⟨hz2, hx2, hx2', hy2, hy2'⟩ := h2
  have hzz : s.z - t.z = (c.z - t.z) + (s.z - c.z) := by omega
  refine ⟨by omega, ?_, ?_, ?_, ?_⟩ <;> rw [hzz, pow_add]
  · calc t.x * (2 ^ (c.z - t.z) * 2 ^ (s.z - c.z))
        = (t.x * 2 ^ (c.z - t.z)) * 2 ^ (s.z - c.z) := by ring
      _ ≤ c.x * 2 ^ (s.z - c.z) := Nat.mul_le_mul_right _ hx1
      _ ≤ s.x := hx2
  · calc s.x < (c.x + 1) * 2 ^ (s.z - c.z) := hx2'
      _ ≤ ((t.x + 1) * 2 ^ (c.z - t.z)) * 2 ^ (s.z - c.z) :=
        Nat.mul_le_mul_right _ (by omega)
      _ = (t.x + 1) * (2 ^ (c.z - t.z) * 2 ^ (s.z - c.z)) := by ring
  · calc t.y * (2 ^ (c.z - t.z) * 2 ^ (s.z - c.z))
        = (t.y * 2 ^ (c.z - t.z)) * 2 ^ (s.z - c.z) := by ring
      _ ≤ c.y * 2 ^ (s.z - c.z) := Nat.mul_le_mul_right _ hy1
      _ ≤ s.y := hy2
  · calc s.y < (c.y + 1) * 2 ^ (s.z - c.z) := hy2'
      _ ≤ ((t.y + 1) * 2 ^ (c.z - t.z)) * 2 ^ (s.z - c.z) :=
        Nat.mul_le_mul_right _ (by omega)
      _ = (t.y + 1) * (2 ^ (c.z - t.z) * 2 ^ (s.z - c.z)) := by ring

/-- Two half-open scaled intervals that contain the same point have the same
left endpoint. -/
theorem interval_unique {a b k n : Nat} (ha1 : a * k ≤ n)
    (ha2 : n < (a + 1) * k) (hb1 : b * k ≤ n) (hb2 : n < (b + 1) * k) :
    a = b := by
  rcases Nat.lt_trichotomy a b with h | h | h
  · exfalso
    have hk : (a + 1) * k ≤ b * k := Nat.mul_le_mul_right _ (by omega)
    omega
  · exact h
  · exfalso
    have hk : (b + 1) * k ≤ a * k := Nat.mul_le_mul_right _ (by omega)
    omega

/-- A tile has at most one ancestor at any fixed zoom level. -/
theorem descendant_unique {c1 c2 s : Tile} (h1 : descendant c1 s)
    (h2 : descendant c2 s) (hz : c1.z = c2.z) : c1 = c2 := by
  obtain ⟨hz1, hx1, hx1', hy1, hy1'⟩ := h1
  obtain ⟨hz2, hx2, hx2', hy2, hy2'⟩ := h2
  rw [hz] at hx1 hx1' hy1 hy1'
  have hx : c1.x = c2.x := interval_unique hx1 hx1' hx2 hx2'
  have hy : c1.y = c2.y := interval_unique hy1 hy1' hy2 hy2'
  cases c1
  cases c2
  simp_all

/-- Every tile produced by the recursion from `t` is a descendant of `t`. -/
theorem mem_count_tiles_fuel {inter : Tile → Bool} {minZ maxZ : Nat} :
    ∀ (fuel : Nat) (t s : Tile),
      s ∈ count_tiles_fuel inter minZ maxZ fuel t → descendant t s := by
  intro fuel
  induction fuel with
  | zero =>
    intro t s hs
    simp only [count_tiles_fuel] at hs
    split at hs
    · cases hs
    · rcases List.mem_append.mp hs with h1 | h2
      · split at h1
        · rw [List.mem_singleton] at h1
          subst h1
          exact descendant_refl s
        · cases h1
      · split at h2 <;> cases h2
  | succ fuel ih =>
    intro t s hs
    simp only [count_tiles_fuel] at hs
    split at hs
    · cases hs
    · rcases List.mem_append.mp hs with h1 | h2
      · split at h1
        · rw [List.mem_singleton] at h1
          subst h1
          exact descendant_refl s
        · cases h1
      · split at h2
        · rcases List.mem_append.mp h2 with h | h
          · exact descendant_trans
              (descendant_child (List.mem_cons_self _ _)) (ih _ s h)
          · rcases List.mem_append.mp h with h | h
            · exact descendant_trans
                (descendant_child (by simp [tile_children])) (ih _ s h)
            · rcases List.mem_append.mp h with h | h
              · exact descendant_trans
                  (descendant_child (by simp [tile_children])) (ih _ s h)
              · exact descendant_trans
                  (descendant_child (by simp [tile_children])) (ih _ s h)
        · cases h2

/-- Sublists produced for two distinct tiles at the same zoom are disjoint:
every element descends from both, which would force the tiles equal. -/
theorem count_tiles_fuel_disjoint {inter : Tile → Bool} {minZ maxZ : Nat}
    {fuel1 fuel2 : Nat} {c1 c2 : Tile} (hz : c1.z = c2.z) (hne : c1 ≠ c2) :
    List.Disjoint (count_tiles_fuel inter minZ maxZ fuel1 c1)
      (count_tiles_fuel inter minZ maxZ fuel2 c2) := by
  intro s hs1 hs2
  exact hne (descendant_unique (mem_count_tiles_fuel fuel1 c1 s hs1)
    (mem_count_tiles_fuel fuel2 c2 s hs2) hz)

/-- The root of a recursion never recurs among the children's results: all of
those lie strictly deeper. -/
theorem count_tiles_fuel_root_not_deeper {inter : Tile → Bool}
    {minZ maxZ fuel : Nat} {t c s : Tile} (hc : c ∈ tile_children t)
    (hs : s ∈ count_tiles_fuel inter minZ maxZ fuel c) : t.z < s.z := by
  have hd := mem_count_tiles_fuel fuel c s hs
  have hcz : c.z = t.z + 1 := by
    simp [tile_children] at hc
    rcases hc with rfl | rfl | rfl | rfl <;> rfl
  have := hd.1
  omega

/-- The enumeration never lists the same tile twice: each `(x, y, z)` is
reached exactly once along the quadtree. -/
theorem count_tiles_fuel_nodup {inter : Tile → Bool} {minZ maxZ : Nat} :
    ∀ (fuel : Nat) (t : Tile),
      (count_tiles_fuel inter minZ maxZ fuel t).Nodup := by
  intro fuel
  induction fuel with
  | zero =>
    intro t
    simp only [count_tiles_fuel]
    split
    · exact List.nodup_nil
    · refine List.Nodup.append ?_ ?_ ?_
      · split
        · exact List.nodup_singleton t
        · exact List.nodup_nil
      · split <;> exact List.nodup_nil
      · intro s hs1 hs2
        split at hs2 <;> cases hs2
  | succ fuel ih =>
    intro t
    have d12 := @count_tiles_fuel_disjoint inter minZ maxZ fuel fuel
      ⟨2 * t.x, 2 * t.y, t.z + 1⟩ ⟨2 * t.x, 2 * t.y + 1, t.z + 1⟩
      rfl (tile_mk_ne (by omega))
    have d13 := @count_tiles_fuel_disjoint inter minZ maxZ fuel fuel
      ⟨2 * t.x, 2 * t.y, t.z + 1⟩ ⟨2 * t.x + 1, 2 * t.y, t.z + 1⟩
      rfl (tile_mk_ne (by omega))
    have d14 := @count_tiles_fuel_disjoint inter minZ maxZ fuel fuel
      ⟨2 * t.x, 2 * t.y, t.z + 1⟩ ⟨2 * t.x + 1, 2 * t.y + 1, t.z + 1⟩
      rfl (tile_mk_ne (by omega))
    have d23 := @count_tiles_fuel_disjoint inter minZ maxZ fuel fuel
      ⟨2 * t.x, 2 * t.y + 1, t.z + 1⟩ ⟨2 * t.x + 1, 2 * t.y, t.z + 1⟩
      rfl (tile_mk_ne (by omega))
    have d24 := @count_tiles_fuel_disjoint inter minZ maxZ fuel fuel
      ⟨2 * t.x, 2 * t.y + 1, t.z + 1⟩ ⟨2 * t.x + 1, 2 * t.y + 1, t.z + 1⟩
      rfl (tile_mk_ne (by omega))
    have d34 := @count_tiles_fuel_disjoint inter minZ maxZ fuel fuel
      ⟨2 * t.x + 1, 2 * t.y, t.z + 1⟩ ⟨2 * t.x + 1, 2 * t.y + 1, t.z + 1⟩
      rfl (tile_mk_ne (by omega))
    simp only [count_tiles_fuel]
    split
    · exact List.nodup_nil
    · refine List.Nodup.append ?_ ?_ ?_
      · split
        · exact List.nodup_singleton t
        · exact List.nodup_nil
      · split
        · refine List.Nodup.append (ih _) ?_ ?_
          · refine List.Nodup.append (ih _) ?_ ?_
            · exact List.Nodup.append (ih _) (ih _) d34
            · intro s hs1 hs2
              rcases List.mem_append.mp hs2 with h | h
              · exact d23 hs1 h
              · exact d24 hs1 h
          · intro s hs1 hs2
            rcases List.mem_append.mp hs2 with h | h
            · exact d12 hs1 h
            · rcases List.mem_append.mp h with h | h
              · exact d13 hs1 h
              · exact d14 hs1 h
        · exact List.nodup_nil
      · intro s hs1 hs2
        split at hs1
        · rw [List.mem_singleton] at hs1
          split at hs2
          · have hlt : t.z < s.z := by
              rcases List.mem_append.mp hs2 with h | h
              · exact count_tiles_fuel_root_not_deeper
                  (show (⟨2 * t.x, 2 * t.y, t.z + 1⟩ : Tile) ∈
                    tile_children t by simp [tile_children]) h
              · rcases List.mem_append.mp h with h | h
                · exact count_tiles_fuel_root_not_deeper
                    (show (⟨2 * t.x, 2 * t.y + 1, t.z + 1⟩ : Tile) ∈
                      tile_children t by simp [tile_children]) h
                · rcases List.mem_append.mp h with h | h
                  · exact count_tiles_fuel_root_not_deeper
                      (show (⟨2 * t.x + 1, 2 * t.y, t.z + 1⟩ : Tile) ∈
                        tile_children t by simp [tile_children]) h
                  · exact count_tiles_fuel_root_not_deeper
                      (show (⟨2 * t.x + 1, 2 * t.y + 1, t.z + 1⟩ : Tile) ∈
                        tile_children t by simp [tile_children]) h
            rw [hs1] at hlt
            omega
          · cases hs2
        · cases hs1

/-- Membership in the reference pyramid list coincides with the index
bounds for zooms 0..2. -/
theorem mem_allTiles012 (s : Tile) :
    s ∈ allTiles012 ↔ (s.z ≤ 2 ∧ s.x < 2 ^ s.z ∧ s.y < 2 ^ s.z) := by
  simp only [allTiles012, List.mem_flatMap, List.mem_map, List.mem_range]
  constructor
  · rintro ⟨z, hz, x, hx, y, hy, rfl⟩
    refine ⟨?_, hx, hy⟩
    show z ≤ 2
    omega
  · rintro ⟨hz, hx, hy⟩
    exact ⟨s.z, by omega, s.x, hx, s.y, ⟨hy, rfl⟩⟩

/-- C6: the whole-world enumeration over zooms `[0, 2]` yields exactly 21
tiles; for every extent predicate and zoom range the enumeration from any
start tile is duplicate-free; and the 21 tiles are exactly one per `(x,y,z)`
with `0 <= x,y < 2^z` and `0 <= z <= 2`. -/
theorem C6_world_enumeration_21_nodup :
    (count_tiles (fun _ => true) 0 2 ⟨0, 0, 0⟩).length = 21 ∧
    (∀ (inter : Tile → Bool) (minZ maxZ : Nat) (t : Tile),
      (count_tiles inter minZ maxZ t).Nodup) ∧
    (∀ s : Tile, s ∈ count_tiles (fun _ => true) 0 2 ⟨0, 0, 0⟩ ↔
      (s.z ≤ 2 ∧ s.x < 2 ^ s.z ∧ s.y < 2 ^ s.z)) := by
  refine ⟨by decide, fun inter minZ maxZ t => count_tiles_fuel_nodup _ _, ?_⟩
  have hsub1 : ∀ s ∈ count_tiles (fun _ => true) 0 2 ⟨0, 0, 0⟩,
      s ∈ allTiles012 := by decide
  have hsub2 : ∀ s ∈ allTiles012,
      s ∈ count_tiles (fun _ => true) 0 2 ⟨0, 0, 0⟩ := by decide
  intro s
  constructor
  · intro hs
    exact (mem_allTiles012 s).mp (hsub1 s hs)
  · intro hb
    exact hsub2 s ((mem_allTiles012 s).mpr hb)

/-- When the intersection predicate is hereditary (an intersecting tile
always has an intersecting child) the recursion from an intersecting tile
reaches every zoom level of the range below it. -/
theorem count_tiles_fuel_exists_at_zoom {inter : Tile → Bool}
    {minZ maxZ : Nat} :
    ∀ (fuel : Nat) (t : Tile) (z : Nat),
      (∀ u : Tile, inter u = true → ∃ c ∈ tile_children u, inter c = true) →
      inter t = true → t.z ≤ z → minZ ≤ z → z ≤ maxZ → maxZ - t.z ≤ fuel →
      ∃ s ∈ count_tiles_fuel inter minZ maxZ fuel t, s.z = z := by
  intro fuel
  induction fuel with
  | zero =>
    intro t z hH hI hz1 hz2 hz3 hf
    have hzz : z = t.z := by omega
    subst hzz
    refine ⟨t, ?_, rfl⟩
    simp [count_tiles_fuel, hI, hz2, hz3]
  | succ fuel ih =>
    intro t z hH hI hz1 hz2 hz3 hf
    by_cases hzz : t.z = z
    · refine ⟨t, ?_, hzz⟩
      simp [count_tiles_fuel, hI, hzz ▸ hz2, hzz ▸ hz3]
    · have hlt : t.z < z := by omega
      have hmax : t.z < maxZ := by omega
      obtain ⟨c, hc, hcI⟩ := hH t hI
      have hcz : c.z = t.z + 1 := by
        simp [tile_children] at hc
        rcases hc with rfl | rfl | rfl | rfl <;> rfl
      obtain ⟨s, hs, hsz⟩ := ih c z hH hcI (by omega) hz2 hz3 (by omega)
      refine ⟨s, ?_, hsz⟩
      simp only [count_tiles_fuel, hI, Bool.true_eq_false, if_false,
        if_pos hmax]
      apply List.mem_append_right
      simp [tile_children] at hc
      rcases hc with rfl | rfl | rfl | rfl
      · exact List.mem_append_left _ hs
      · exact List.mem_append_right _ (List.mem_append_left _ hs)
      · exact List.mem_append_right _
          (List.mem_append_right _ (List.mem_append_left _ hs))
      · exact List.mem_append_right _
          (List.mem_append_right _ (List.mem_append_right _ hs))

/-- C9: whenever the extent predicate is hereditary (the geometric fact the
claim cites: an extent intersecting a tile's rectangle intersects some
child's rectangle, since the four children partition the parent) and the
root tile `(0,0,0)` intersects, every zoom level of `[minZoom, maxZoom]`
receives at least one enumerated tile, so `tileset_ranges` finds a nonempty
per-zoom list and its first/last indexing cannot fail. -/
theorem C9_ranges_error_free (inter : Tile → Bool) (minZ maxZ z : Nat)
    (hH : ∀ u : Tile, inter u = true → ∃ c ∈ tile_children u, inter c = true)
    (hroot : inter ⟨0, 0, 0⟩ = true) (h1 : minZ ≤ z) (h2 : z ≤ maxZ) :
    (tileset_ranges_z (count_tiles inter minZ maxZ ⟨0, 0, 0⟩) z).isSome := by
  obtain ⟨s, hs, hsz⟩ := count_tiles_fuel_exists_at_zoom (maxZ - 0) ⟨0, 0, 0⟩ z
    hH hroot (Nat.zero_le z) h1 h2 (le_refl _)
  have hmem : s ∈ (count_tiles inter minZ maxZ ⟨0, 0, 0⟩).filter
      (fun t => t.z == z) :=
    List.mem_filter.mpr ⟨hs, by simp [hsz]⟩
  rcases hfil : (count_tiles inter minZ maxZ ⟨0, 0, 0⟩).filter
      (fun t => t.z == z) with _ | ⟨h, hs'⟩
  · rw [hfil] at hmem
    cases hmem
  · simp [tileset_ranges_z, hfil]

/-- C9 witness: the whole-world predicate is hereditary, and at zoom 1 of
the range `[0, 1]` the ranges lookup succeeds. -/
theorem C9_ranges_error_free_witness :
    (∀ u : Tile, (fun _ => true : Tile → Bool) u = true →
      ∃ c ∈ tile_children u, (fun _ => true : Tile → Bool) c = true) ∧
    (fun _ => true : Tile → Bool) ⟨0, 0, 0⟩ = true ∧ (0 : Nat) ≤ 1 ∧
    (1 : Nat) ≤ 1 ∧
    (tileset_ranges_z (count_tiles (fun _ => true) 0 1 ⟨0, 0, 0⟩) 1).isSome :=
  ⟨fun u _ => ⟨⟨2 * u.x, 2 * u.y, u.z + 1⟩, List.mem_cons_self _ _, rfl⟩,
   rfl, by decide, by decide,
   C9_ranges_error_free (fun _ => true) 0 1 1
     (fun u _ => ⟨⟨2 * u.x, 2 * u.y, u.z + 1⟩, List.mem_cons_self _ _, rfl⟩)
     rfl (by decide) (by decide)⟩

/-! ### Metatile walk lemmas -/

/-- Any value strictly below the stop bound is covered by some step of the
metatile walk (given sufficient fuel and a positive step). -/
theorem meta_steps_fuel_cover {meta : Int} (hm : 1 ≤ meta) :
    ∀ (fuel : Nat) (start stop v : Int),
      (stop - start).toNat ≤ fuel → start ≤ v → v < stop →
      ∃ p ∈ meta_steps_fuel meta fuel start stop, p.1 ≤ v ∧ v ≤ p.2 := by
  intro fuel
  induction fuel with
  | zero =>
    intro start stop v hf h1 h2
    exfalso
    omega
  | succ fuel ih =>
    intro start stop v hf h1 h2
    have hlt : start < stop := by omega
    simp only [meta_steps_fuel, if_pos hlt]
    by_cases hv : v ≤ start + meta - 1
    · exact ⟨(start, start + meta - 1), List.mem_cons_self _ _, h1, hv⟩
    · obtain ⟨p, hp, hpv⟩ := ih (start + meta) stop v (by omega)
        (by omega) h2
      exact ⟨p, List.mem_cons_of_mem _ hp, hpv⟩

/-- When the walk's span (`stop - start + 1`) is a positive multiple of a
step of at least 2, the stop index itself is covered by the last step. -/
theorem meta_steps_fuel_cover_top {meta : Int} (hm : 2 ≤ meta) :
    ∀ (fuel : Nat) (start stop : Int),
      (stop - start).toNat ≤ fuel → start ≤ stop →
      meta ∣ (stop - start + 1) →
      ∃ p ∈ meta_steps_fuel meta fuel start stop,
        p.1 ≤ stop ∧ stop ≤ p.2 := by
  intro fuel
  induction fuel with
  | zero =>
    intro start stop hf h1 hdvd
    exfalso
    have hspan : meta ≤ stop - start + 1 := Int.le_of_dvd (by omega) hdvd
    omega
  | succ fuel ih =>
    intro start stop hf h1 hdvd
    have hspan : meta ≤ stop - start + 1 := Int.le_of_dvd (by omega) hdvd
    have hlt : start < stop := by omega
    simp only [meta_steps_fuel, if_pos hlt]
    by_cases hend : stop - start + 1 = meta
    · exact ⟨(start, start + meta - 1), List.mem_cons_self _ _,
        by omega, by omega⟩
    · obtain ⟨k, hk⟩ := hdvd
      have hk1 : 1 ≤ k := by
        by_contra hc
        push_neg at hc
        have hle : meta * k ≤ meta * 0 :=
          mul_le_mul_of_nonneg_left (by omega) (by omega)
        simp only [mul_zero] at hle
        omega
      have hk2 : 2 ≤ k := by
        rcases eq_or_lt_of_le hk1 with h | h
        · exfalso
          apply hend
          rw [hk, ← h, mul_one]
        · omega
      have hspan2 : 2 * meta ≤ stop - start + 1 := by
        have h2k : meta * 2 ≤ meta * k :=
          mul_le_mul_of_nonneg_left hk2 (by omega)
        omega
      obtain ⟨p, hp, hpv⟩ := ih (start + meta) stop (by omega) (by omega)
        ⟨k - 1, by rw [mul_sub, mul_one]; omega⟩
      exact ⟨p, List.mem_cons_of_mem _ hp, hpv⟩

/-- Every index of the original inclusive range `[lo, hi]` is covered by some
step of the walk over the remainder-padded range, for any step size of at
least 2 — the coverage property behind the metatile partition. -/
theorem meta_steps_cover_padded {meta : Int} (hm : 2 ≤ meta)
    (lo hi v : Int) (h1 : lo ≤ v) (h2 : v ≤ hi) :
    ∃ p ∈ meta_steps lo
        (if 0 < (hi + 1 - lo) % meta then hi + (hi + 1 - lo) % meta else hi)
        meta, p.1 ≤ v ∧ v ≤ p.2 := by
  have hoff0 : 0 ≤ (hi + 1 - lo) % meta := Int.emod_nonneg _ (by omega)
  by_cases hpos : 0 < (hi + 1 - lo) % meta
  · rw [if_pos hpos]
    exact meta_steps_fuel_cover (by omega) _ lo (hi + (hi + 1 - lo) % meta) v
      (le_refl _) h1 (by omega)
  · rw [if_neg hpos]
    have hdvd : meta ∣ (hi + 1 - lo) :=
      Int.dvd_of_emod_eq_zero (by omega)
    by_cases hv : v < hi
    · exact meta_steps_fuel_cover (by omega) _ lo hi v (le_refl _) h1 hv
    · have hvh : v = hi := by omega
      subst hvh
      exact meta_steps_fuel_cover_top hm _ lo v (le_refl _) (by omega)
        (by rwa [show v - lo + 1 = v + 1 - lo by ring])

/-- The first step of a nonempty walk is emitted. -/
theorem meta_steps_head_mem {lo stop meta : Int} (h : lo < stop) :
    (lo, lo + meta - 1) ∈ meta_steps lo stop meta := by
  unfold meta_steps
  have hfe : (stop - lo).toNat = ((stop - lo).toNat - 1) + 1 := by omega
  rw [hfe]
  simp only [meta_steps_fuel, if_pos h]
  exact List.mem_cons_self _ _

/-! ### Bounds lemmas for the per-zoom ranges reduction -/

/-- Folding `min` only decreases the accumulator. -/
theorem foldl_min_le_init (f : Tile → Nat) :
    ∀ (ts : List Tile) (a : Nat), ts.foldl (fun b s => min b (f s)) a ≤ a := by
  intro ts
  induction ts with
  | nil => intro a; exact le_refl a
  | cons u us ih =>
    intro a
    exact le_trans (ih (min a (f u))) (min_le_left _ _)

/-- The fold of `min` is a lower bound of every listed key. -/
theorem foldl_min_le_mem (f : Tile → Nat) :
    ∀ (ts : List Tile) (a : Nat) (s : Tile), s ∈ ts →
      ts.foldl (fun b u => min b (f u)) a ≤ f s := by
  intro ts
  induction ts with
  | nil => intro a s hs; cases hs
  | cons u us ih =>
    intro a s hs
    rcases List.mem_cons.mp hs with rfl | hs
    · exact le_trans (foldl_min_le_init f us (min a (f s)))
        (min_le_right _ _)
    · exact ih (min a (f u)) s hs

/-- Folding `max` only increases the accumulator. -/
theorem foldl_max_ge_init (f : Tile → Nat) :
    ∀ (ts : List Tile) (a : Nat), a ≤ ts.foldl (fun b s => max b (f s)) a := by
  intro ts
  induction ts with
  | nil => intro a; exact le_refl a
  | cons u us ih =>
    intro a
    exact le_trans (le_max_left _ _) (ih (max a (f u)))

/-- The fold of `max` is an upper bound of every listed key. -/
theorem foldl_max_ge_mem (f : Tile → Nat) :
    ∀ (ts : List Tile) (a : Nat) (s : Tile), s ∈ ts →
      f s ≤ ts.foldl (fun b u => max b (f u)) a := by
  intro ts
  induction ts with
  | nil => intro a s hs; cases hs
  | cons u us ih =>
    intro a s hs
    rcases List.mem_cons.mp hs with rfl | hs
    · exact le_trans (le_max_right _ _) (foldl_max_ge_init f us (max a (f s)))
    · exact ih (max a (f u)) s hs

/-- A successful per-zoom ranges lookup brackets every tile of that zoom
level. -/
theorem tileset_ranges_z_bounds {L : List Tile} {z : Nat} {r : MRange}
    (hr : tileset_ranges_z L z = some r) {t : Tile} (ht : t ∈ L)
    (htz : t.z = z) :
    r.rmin ≤ (t.y : Int) ∧ (t.y : Int) ≤ r.rmax ∧
    r.cmin ≤ (t.x : Int) ∧ (t.x : Int) ≤ r.cmax := by
  have htf : t ∈ L.filter (fun u => u.z == z) :=
    List.mem_filter.mpr ⟨ht, by simp [htz]⟩
  rcases hfil : L.filter (fun u => u.z == z) with _ | ⟨h, hs⟩
  · rw [hfil] at htf
    cases htf
  · rw [tileset_ranges_z.eq_def, hfil] at hr
    rw [Option.some_inj] at hr
    subst hr
    rw [hfil] at htf
    rcases List.mem_cons.mp htf with rfl | hmem
    · refine ⟨?_, ?_, ?_, ?_⟩ <;> simp only [] <;>
        first
        | exact Int.ofNat_le.mpr (foldl_min_le_init Tile.y hs t.y)
        | exact Int.ofNat_le.mpr (foldl_max_ge_init Tile.y hs t.y)
        | exact Int.ofNat_le.mpr (foldl_min_le_init Tile.x hs t.x)
        | exact Int.ofNat_le.mpr (foldl_max_ge_init Tile.x hs t.x)
    · refine ⟨?_, ?_, ?_, ?_⟩ <;> simp only [] <;>
        first
        | exact Int.ofNat_le.mpr (foldl_min_le_mem Tile.y hs h.y t hmem)
        | exact Int.ofNat_le.mpr (foldl_max_ge_mem Tile.y hs h.y t hmem)
        | exact Int.ofNat_le.mpr (foldl_min_le_mem Tile.x hs h.x t hmem)
        | exact Int.ofNat_le.mpr (foldl_max_ge_mem Tile.x hs h.x t hmem)

/-- Unbuffered bounds of a buffered metatile literal. -/
theorem unbuffered_mk_true (a b c d : Int) (z : Nat) :
    Metatile.unbuffered ⟨a, b, c, d, z, true⟩ =
      ⟨a + 1, b - 1, c + 1, d - 1⟩ := rfl

/-- Unbuffered bounds of an unbuffered metatile literal. -/
theorem unbuffered_mk_false (a b c d : Int) (z : Nat) :
    Metatile.unbuffered ⟨a, b, c, d, z, false⟩ = ⟨a, b, c, d⟩ := rfl

/-- Coverage of one zoom level by `count_metatiles_z`: with metatile sizes of
at least 2 in both dimensions, every index pair inside the level's bounds
falls inside the unbuffered bounds of some emitted metatile. -/
theorem count_metatiles_z_covers (r : MRange) (z : Nat) (mr mc : Int)
    (buffer : Bool) (v w : Int) (hmr : 2 ≤ mr) (hmc : 2 ≤ mc)
    (hv1 : r.rmin ≤ v) (hv2 : v ≤ r.rmax) (hw1 : r.cmin ≤ w)
    (hw2 : w ≤ r.cmax) :
    ∃ m ∈ count_metatiles_z (tileset_size r) r z mr mc buffer,
      m.z = z ∧ m.unbuffered.rmin ≤ v ∧ v ≤ m.unbuffered.rmax ∧
      m.unbuffered.cmin ≤ w ∧ w ≤ m.unbuffered.cmax := by
  by_cases hbig : (tileset_size r).2 ≤ mc ∧ (tileset_size r).1 ≤ mr
  · refine ⟨⟨r.rmin, r.rmax, r.cmin, r.cmax, z, false⟩, ?_, rfl, ?_⟩
    · simp [count_metatiles_z, hbig]
    · rw [unbuffered_mk_false]
      exact ⟨hv1, hv2, hw1, hw2⟩
  · obtain ⟨p, hp, hp1, hp2⟩ :=
      meta_steps_cover_padded hmr r.rmin r.rmax v hv1 hv2
    obtain ⟨q, hq, hq1, hq2⟩ :=
      meta_steps_cover_padded hmc r.cmin r.cmax w hw1 hw2
    by_cases hbuf : buffer
    · subst hbuf
      refine ⟨⟨p.1 - 1, p.2 + 1, q.1 - 1, q.2 + 1, z, true⟩, ?_, rfl,
        ?_, ?_, ?_, ?_⟩
      · simp only [count_metatiles_z, if_neg hbig]
        exact List.mem_flatMap.mpr ⟨q, hq, List.mem_map.mpr ⟨p, hp, rfl⟩⟩
      all_goals rw [unbuffered_mk_true]
      · show p.1 - 1 + 1 ≤ v
        omega
      · show v ≤ p.2 + 1 - 1
        omega
      · show q.1 - 1 + 1 ≤ w
        omega
      · show w ≤ q.2 + 1 - 1
        omega
    · simp only [Bool.not_eq_true] at hbuf
      subst hbuf
      refine ⟨⟨p.1, p.2, q.1, q.2, z, false⟩, ?_, rfl, ?_, ?_, ?_, ?_⟩
      · simp only [count_metatiles_z, if_neg hbig]
        exact List.mem_flatMap.mpr ⟨q, hq, List.mem_map.mpr ⟨p, hp, rfl⟩⟩
      all_goals rw [unbuffered_mk_false]
      · exact hp1
      · exact hp2
      · exact hq1
      · exact hq2

/-- Per-zoom metatile lists embed into the full metatile list of the zoom
range. -/
theorem mem_count_metatiles_of_z {minZ maxZ z : Nat}
    {sizes : Nat → Int × Int} {ranges : Nat → MRange} {mr mc : Int}
    {buffer : Bool} {m : Metatile} (h1 : minZ ≤ z) (h2 : z ≤ maxZ)
    (hm : m ∈ count_metatiles_z (sizes z) (ranges z) z mr mc buffer) :
    m ∈ count_metatiles minZ maxZ sizes ranges mr mc buffer := by
  unfold count_metatiles
  refine List.mem_flatMap.mpr ⟨z, ?_, hm⟩
  rw [List.mem_range'_1]
  omega

/-! ### Metatile claim theorems -/

/-- C1 counterexample: in the full pipeline (whole-world enumeration of zoom
level 1, per-zoom ranges and sizes) with metatile size 1x1 — rows >= 1 and
cols >= 1 as the claim allows — the enumerated tile `(1,1,1)` is covered by
no emitted metatile: the walk's strict `<` bounds drop the last row and
column when the metatile size is 1. -/
theorem C1_counterexample_metatile_size_one :
    (⟨1, 1, 1⟩ : Tile) ∈ count_tiles (fun _ => true) 1 1 ⟨0, 0, 0⟩ ∧
    tileset_ranges_z (count_tiles (fun _ => true) 1 1 ⟨0, 0, 0⟩) 1 =
      some ⟨0, 1, 0, 1⟩ ∧
    tileset_size ⟨0, 1, 0, 1⟩ = (2, 2) ∧
    count_metatiles 1 1 (fun _ => (2, 2)) (fun _ => ⟨0, 1, 0, 1⟩) 1 1 false =
      [⟨0, 0, 0, 0, 1, false⟩] ∧
    (∀ m ∈ count_metatiles 1 1 (fun _ => (2, 2)) (fun _ => ⟨0, 1, 0, 1⟩)
        1 1 false,
      ¬(m.unbuffered.rmin ≤ (1 : Int) ∧ (1 : Int) ≤ m.unbuffered.rmax ∧
        m.unbuffered.cmin ≤ (1 : Int) ∧ (1 : Int) ≤ m.unbuffered.cmax)) := by
  refine ⟨by decide, by decide, by decide, by decide, by decide⟩

/-- C1 amended: for metatile sizes of at least 2 in both dimensions, every
enumerated tile of every zoom level of the range is covered by some emitted
metatile's unbuffered bounds; and the 5x5 span with unbuffered 2x2 metatiles
yields exactly 9 metatiles whose padded bounds form a 6x6 box. -/
theorem C1_metatile_coverage :
    (∀ (L : List Tile) (minZ maxZ : Nat) (t : Tile) (r : MRange)
        (sizes : Nat → Int × Int) (ranges : Nat → MRange) (mr mc : Int)
        (buffer : Bool),
      t ∈ L → minZ ≤ t.z → t.z ≤ maxZ →
      tileset_ranges_z L t.z = some r →
      ranges t.z = r → sizes t.z = tileset_size r → 2 ≤ mr → 2 ≤ mc →
      ∃ m ∈ count_metatiles minZ maxZ sizes ranges mr mc buffer,
        m.z = t.z ∧
        m.unbuffered.rmin ≤ (t.y : Int) ∧ (t.y : Int) ≤ m.unbuffered.rmax ∧
        m.unbuffered.cmin ≤ (t.x : Int) ∧ (t.x : Int) ≤ m.unbuffered.cmax) ∧
    (count_metatiles_z (5, 5) ⟨0, 4, 0, 4⟩ 3 2 2 false).length = 9 ∧
    (∀ m ∈ count_metatiles_z (5, 5) ⟨0, 4, 0, 4⟩ 3 2 2 false,
      0 ≤ m.rmin ∧ m.rmax ≤ 5 ∧ 0 ≤ m.cmin ∧ m.cmax ≤ 5 ∧
      m.rmax - m.rmin = 1 ∧ m.cmax - m.cmin = 1) ∧
    (∃ m ∈ count_metatiles_z (5, 5) ⟨0, 4, 0, 4⟩ 3 2 2 false,
      m.rmax = 5 ∧ m.cmax = 5) ∧
    (∃ m ∈ count_metatiles_z (5, 5) ⟨0, 4, 0, 4⟩ 3 2 2 false,
      m.rmin = 0 ∧ m.cmin = 0) := by
  refine ⟨?_, by decide, by decide, by decide, by decide⟩
  intro L minZ maxZ t r sizes ranges mr mc buffer ht hz1 hz2 hrr hrg hsz
    hmr hmc
  obtain ⟨hb1, hb2, hb3, hb4⟩ := tileset_ranges_z_bounds hrr ht rfl
  obtain ⟨m, hm, hmz, hc1, hc2, hc3, hc4⟩ :=
    count_metatiles_z_covers r t.z mr mc buffer (t.y : Int) (t.x : Int)
      hmr hmc hb1 hb2 hb3 hb4
  refine ⟨m, mem_count_metatiles_of_z hz1 hz2 ?_, hmz, hc1, hc2, hc3, hc4⟩
  rw [hrg, hsz]
  exact hm

/-- C1 witness: the amended coverage applied to the whole-world zoom-1
pipeline with the default 2x2 metatile size, covering tile `(1,1,1)`. -/
theorem C1_metatile_coverage_witness :
    ((⟨1, 1, 1⟩ : Tile) ∈ count_tiles (fun _ => true) 1 1 ⟨0, 0, 0⟩ ∧
     (1 : Nat) ≤ 1 ∧
     tileset_ranges_z (count_tiles (fun _ => true) 1 1 ⟨0, 0, 0⟩) 1 =
       some ⟨0, 1, 0, 1⟩ ∧ (2 : Int) ≤ 2) ∧
    (∃ m ∈ count_metatiles 1 1 (fun _ => tileset_size ⟨0, 1, 0, 1⟩)
        (fun _ => ⟨0, 1, 0, 1⟩) 2 2 false,
      m.z = (⟨1, 1, 1⟩ : Tile).z ∧
      m.unbuffered.rmin ≤ ((⟨1, 1, 1⟩ : Tile).y : Int) ∧
      ((⟨1, 1, 1⟩ : Tile).y : Int) ≤ m.unbuffered.rmax ∧
      m.unbuffered.cmin ≤ ((⟨1, 1, 1⟩ : Tile).x : Int) ∧
      ((⟨1, 1, 1⟩ : Tile).x : Int) ≤ m.unbuffered.cmax) :=
  ⟨⟨by decide, by decide, by decide, by decide⟩,
   C1_metatile_coverage.1 (count_tiles (fun _ => true) 1 1 ⟨0, 0, 0⟩) 1 1
     ⟨1, 1, 1⟩ ⟨0, 1, 0, 1⟩ (fun _ => tileset_size ⟨0, 1, 0, 1⟩)
     (fun _ => ⟨0, 1, 0, 1⟩) 2 2 false (by decide) (by decide) (by decide)
     (by decide) rfl rfl (by decide) (by decide)⟩

/-- C10 counterexample: whole-world zoom 0 with buffering enabled: the
level's bounds `(0,0,0,0)` touch the tile-grid edge on all sides, yet the
single-metatile branch emits one unbuffered metatile whose bounds stay
inside `[0, 2^0)` — refuting both that every emitted metatile is expanded by
1 when buffering is enabled and that edge-touching levels always produce
out-of-range references. -/
theorem C10_counterexample_single_branch :
    tileset_ranges_z (count_tiles (fun _ => true) 0 0 ⟨0, 0, 0⟩) 0 =
      some ⟨0, 0, 0, 0⟩ ∧
    count_metatiles_z (tileset_size ⟨0, 0, 0, 0⟩) ⟨0, 0, 0, 0⟩ 0 2 2 true =
      [⟨0, 0, 0, 0, 0, false⟩] ∧
    (∀ m ∈ count_metatiles_z (tileset_size ⟨0, 0, 0, 0⟩) ⟨0, 0, 0, 0⟩ 0
        2 2 true,
      m.buffered = false ∧ 0 ≤ m.rmin ∧ m.rmax ≤ 2 ^ (0 : Nat) - 1 ∧
        0 ≤ m.cmin ∧ m.cmax ≤ 2 ^ (0 : Nat) - 1) := by
  refine ⟨by decide, by decide, by decide⟩

/-- Entry condition of one dimension of the partition walk: the walk over
the remainder-padded range runs at least one step whenever the dimension's
span is at least 2 or the step is at least 2 (a span of 1 with step 1 pads
by `1 % 1 = 0` and the strict `<` loop never runs). -/
theorem padded_stop_gt {lo hi meta : Int} (hm : 1 ≤ meta) (hle : lo ≤ hi)
    (hne : 2 ≤ hi - lo + 1 ∨ 2 ≤ meta) :
    lo < (if 0 < (hi + 1 - lo) % meta
      then hi + (hi + 1 - lo) % meta else hi) := by
  have hoff : 0 ≤ (hi + 1 - lo) % meta := Int.emod_nonneg _ (by omega)
  rcases lt_or_eq_of_le hle with hlt | heq
  · split <;> omega
  · subst heq
    have hm2 : 2 ≤ meta := by
      rcases hne with h | h
      · omega
      · exact h
    have hspan : lo + 1 - lo = (1 : Int) := by ring
    rw [hspan, Int.emod_eq_of_lt (by omega) (by omega),
      if_pos (by norm_num : (0 : Int) < 1)]
    omega

/-- C10 amended: `count_metatiles` never clamps.  With buffering enabled,
every metatile emitted by the partition branch (metatile smaller than the
span in some dimension, the negation of the single-metatile test) is
expanded by exactly 1 in all four directions; so every partition-branch
level whose bounds touch row 0 or column 0, and which emits at least one
metatile (each dimension has span at least 2 or metatile size at least 2 —
a span-1 dimension with size 1 makes the walk emit nothing), emits a
buffered metatile referencing row or column -1, outside `[0, 2^z)`; and
the remainder padding can likewise push bounds past `2^z - 1`, as at zoom 3
for the 5x5 span at rows and columns 3..7. -/
theorem C10_no_clamping (r : MRange) (z : Nat) (mr mc : Int)
    (hmr : 1 ≤ mr) (hmc : 1 ≤ mc)
    (hr : r.rmin ≤ r.rmax) (hc : r.cmin ≤ r.cmax)
    (hpart : ¬((tileset_size r).2 ≤ mc ∧ (tileset_size r).1 ≤ mr))
    (hrow : 2 ≤ r.rmax - r.rmin + 1 ∨ 2 ≤ mr)
    (hcol : 2 ≤ r.cmax - r.cmin + 1 ∨ 2 ≤ mc)
    (hedge : r.rmin = 0 ∨ r.cmin = 0) :
    (∀ m ∈ count_metatiles_z (tileset_size r) r z mr mc true,
      m.buffered = true) ∧
    (∃ m ∈ count_metatiles_z (tileset_size r) r z mr mc true,
      m.buffered = true ∧ (m.rmin < 0 ∨ m.cmin < 0)) ∧
    (∃ m ∈ count_metatiles_z (5, 5) ⟨3, 7, 3, 7⟩ 3 2 2 false,
      (2 ^ (3 : Nat) : Int) ≤ m.rmax) := by
  have hrstop := padded_stop_gt hmr hr hrow
  have hcstop := padded_stop_gt hmc hc hcol
  refine ⟨?_, ?_, by decide⟩
  · intro m hm
    simp only [count_metatiles_z, if_neg hpart] at hm
    obtain ⟨q, hq, hm⟩ := List.mem_flatMap.mp hm
    obtain ⟨p, hp, rfl⟩ := List.mem_map.mp hm
    rfl
  · refine ⟨⟨r.rmin - 1, r.rmin + mr - 1 + 1, r.cmin - 1,
        r.cmin + mc - 1 + 1, z, true⟩, ?_, rfl, ?_⟩
    · simp only [count_metatiles_z, if_neg hpart]
      exact List.mem_flatMap.mpr ⟨(r.cmin, r.cmin + mc - 1),
        meta_steps_head_mem hcstop,
        List.mem_map.mpr ⟨(r.rmin, r.rmin + mr - 1),
          meta_steps_head_mem hrstop, rfl⟩⟩
    · rcases hedge with h | h
      · left
        show r.rmin - 1 < 0
        omega
      · right
        show r.cmin - 1 < 0
        omega

/-- C10 witness: a zoom-4 level with bounds rows 5..12, columns 0..9 — the
metatile smaller than the span in one dimension only is enough for the
partition branch, and the level touches column 0 but not row 0: a buffered
metatile at column -1 is emitted. -/
theorem C10_no_clamping_witness :
    ((1 : Int) ≤ 2 ∧ (⟨5, 12, 0, 9⟩ : MRange).rmin ≤ (⟨5, 12, 0, 9⟩ : MRange).rmax ∧
     (⟨5, 12, 0, 9⟩ : MRange).cmin ≤ (⟨5, 12, 0, 9⟩ : MRange).cmax ∧
     ¬((tileset_size ⟨5, 12, 0, 9⟩).2 ≤ (2 : Int) ∧
       (tileset_size ⟨5, 12, 0, 9⟩).1 ≤ (2 : Int)) ∧
     ((2 : Int) ≤ (⟨5, 12, 0, 9⟩ : MRange).rmax - (⟨5, 12, 0, 9⟩ : MRange).rmin + 1 ∨
       (2 : Int) ≤ 2) ∧
     ((⟨5, 12, 0, 9⟩ : MRange).rmin = 0 ∨ (⟨5, 12, 0, 9⟩ : MRange).cmin = 0)) ∧
    ((∀ m ∈ count_metatiles_z (tileset_size ⟨5, 12, 0, 9⟩) ⟨5, 12, 0, 9⟩ 4
        2 2 true, m.buffered = true) ∧
     (∃ m ∈ count_metatiles_z (tileset_size ⟨5, 12, 0, 9⟩) ⟨5, 12, 0, 9⟩ 4
        2 2 true, m.buffered = true ∧ (m.rmin < 0 ∨ m.cmin < 0)) ∧
     (∃ m ∈ count_metatiles_z (5, 5) ⟨3, 7, 3, 7⟩ 3 2 2 false,
       (2 ^ (3 : Nat) : Int) ≤ m.rmax)) :=
  ⟨⟨by decide, by decide, by decide, by decide, by decide, by decide⟩,
   C10_no_clamping ⟨5, 12, 0, 9⟩ 4 2 2 (by decide) (by decide) (by decide)
     (by decide) (by decide) (by decide) (by decide) (Or.inr rfl)⟩

end GetTiles
